import Mathlib

/-!
Formal model of the CSTBox DataWareHouse export extension (repository
`cstbox/ext-dwh`): shallow embedding of `pycstbox/dwh/process.py`,
`pycstbox/dwh/pending_jobs_queue.py` and `bin/dwh-monitord.py`.

Modelling conventions:
* Python lists of job ids are `List String`; `list.remove`, which raises
  `ValueError` when the element is absent, is modelled as an `Option`
  returning `none` for the raising case.
* HTTP interactions are abstracted as response functions passed as
  parameters; side effects (POST requests, sleeps, queue registrations)
  are recorded in explicit event traces.
* File contents are modelled at the character level (`List Char`).
-/

set_option autoImplicit false

namespace DWH

/-- Python `list.remove(x)`: removes the first occurrence of `x`; raises
`ValueError` — modelled as `none` — when `x` is absent. -/
def listRemove {α : Type} [DecidableEq α] : List α → α → Option (List α)
  | [], _ => none
  | x :: xs, y => if x = y then some xs else (listRemove xs y).map (x :: ·)

namespace PendingJobsQueue

/-- `PendingJobsQueue.append` (`pending_jobs_queue.py` l.43-49):
`self._job_ids.append(str(job_id))` — a plain list append, no duplicate
check, followed by `save()`. -/
def append (ids : List String) (jobId : String) : List String := ids ++ [jobId]

/-- `PendingJobsQueue.remove` (`pending_jobs_queue.py` l.51-59):
`self._job_ids.remove(str(job_id))` — Python `list.remove`, raising
`ValueError` (modelled `none`) when the id is absent; `save()` runs only
when the removal did not raise. -/
def remove (ids : List String) (jobId : String) : Option (List String) :=
  listRemove ids jobId

/-- `PendingJobsQueue.clear` (`pending_jobs_queue.py` l.61-65). -/
def clear (_ids : List String) : List String := []

/-- `PendingJobsQueue.items` (`pending_jobs_queue.py` l.70-71): returns a
copy (`self._job_ids[:]`) of the id list. -/
def items (ids : List String) : List String := ids

end PendingJobsQueue

namespace Worker

/-- Result of one `GET` on the status endpoint for one job id: `none`
models an HTTP-level failure (`resp.ok` false or transport error), and
`some c` a 2xx reply whose JSON `code` field is `c`. -/
def StatusResponse : Type := String → Option Int

/-- Loop body of `Worker.run` over the snapshot `queue.items()`
(`dwh-monitord.py` l.71-101): the first argument is the remaining part of
the snapshot, the second the live queue.  `code == 0` and `code < 0`
remove the id (each via `queue.remove`, which can raise); any other code,
or an HTTP-level failure, leaves the id untouched. -/
def pollGo (resp : String → Option Int) : List String → List String → Option (List String)
  | [], q => some q
  | jobId :: rest, q =>
    match resp jobId with
    | none => pollGo resp rest q
    | some c =>
      if c = 0 then (listRemove q jobId).bind (pollGo resp rest)
      else if c < 0 then (listRemove q jobId).bind (pollGo resp rest)
      else pollGo resp rest q

/-- One polling pass of the Status Watcher: iterate the snapshot
`queue.items()` while removing terminal jobs from the live queue. -/
def pollPass (q : List String) (resp : String → Option Int) : Option (List String) :=
  pollGo resp q q

/-- Whether a job id stays in the Pending Remote-Jobs Queue after being
polled: it stays on HTTP-level failure, or when the reply code is
strictly positive (still in progress). -/
def keeps (resp : String → Option Int) (jobId : String) : Bool :=
  match resp jobId with
  | none => true
  | some c => decide (0 < c)

/-- Erasing, from the live queue `q`, the first occurrence of every id of
the snapshot `l` whose polled status is terminal. -/
def eraseTerminals (resp : String → Option Int) (l q : List String) : List String :=
  l.foldl (fun acc i => if keeps resp i then acc else acc.erase i) q

end Worker

/-- Status responses of the spec example: `{J1: code 0, J2: code -3, J3: code 1}`. -/
def exampleResponses : String → Option Int := fun j =>
  if j = "J1" then some 0
  else if j = "J2" then some (-3)
  else if j = "J3" then some 1
  else none

/-- Observable events of one run of `DWHEventsExportProcess.run`:
insertion of the new backlog entry (`backlog[job_id] = {...}`), execution
of one export job (`job.run(...)`) returning an error code, and removal
of a backlog entry (`del backlog[job_id]`). -/
inductive RunEvent where
  | put (jobId : String)
  | execJob (jobId : String) (errorCode : Int)
  | removeEntry (jobId : String)
  deriving DecidableEq, Repr

/-- Deletion by key from the Backlog mapping (`del backlog[job_id]`); the
`pycstbox.export.Backlog` collaborator is modelled as an association list
keyed by job id, per its contract in the spec (§4.1). -/
def eraseKey {P : Type} : List (String × P) → String → List (String × P)
  | [], _ => []
  | e :: es, k => if e.1 = k then es else e :: eraseKey es k

namespace DWHEventsExportProcess

/-- `DWHEventsExportProcess.ERR_NONE` (`process.py` l.181). -/
def ERR_NONE : Int := 0

/-- `DWHEventsExportProcess.ERR_MULTIPLE` (`process.py` l.182). -/
def ERR_MULTIPLE : Int := 999

/-- Loop body of `DWHEventsExportProcess.run` (`process.py` l.240-250):
iterates a snapshot of the backlog taken at loop entry (the Backlog
`iterate()` contract of spec §4.1), threading the live backlog, the
`failed_jobs` mapping and the event trace.  A job whose run returns error
code 0 is deleted from the live backlog; any other code leaves its entry
in place and records the job in `failed_jobs`. -/
def runLoop {P : Type} (jobRun : String → P → Int) :
    List (String × P) → List (String × P) → List (String × Int) → List RunEvent →
      List (String × P) × List (String × Int) × List RunEvent
  | [], backlog, failed, trace => (backlog, failed, trace)
  | (jobId, parms) :: rest, backlog, failed, trace =>
    let code := jobRun jobId parms
    if code = 0 then
      runLoop jobRun rest (eraseKey backlog jobId) failed
        (trace ++ [RunEvent.execJob jobId code, RunEvent.removeEntry jobId])
    else
      runLoop jobRun rest backlog (failed ++ [(jobId, code)])
        (trace ++ [RunEvent.execJob jobId code])

/-- Result of one run of the events Export Process. -/
structure RunResult (P : Type) where
  trace : List RunEvent
  backlog : List (String × P)
  failedJobs : List (String × Int)
  status : Int
  deriving Repr

/-- `DWHEventsExportProcess.run` (`process.py` l.193-265): the new job of
the day is put into the backlog first, then every backlog entry is
executed; the aggregate status is 0 when `failed_jobs` is empty, the
single job's error code when exactly one job failed, and `ERR_MULTIPLE`
otherwise.  `jobRun` abstracts `DWHEventsExportJob(...).run(...)`. -/
def run {P : Type} (backlog0 : List (String × P)) (newJobId : String)
    (newParms : P) (jobRun : String → P → Int) : RunResult P :=
  let entries := backlog0 ++ [(newJobId, newParms)]
  let r := runLoop jobRun entries entries [] [RunEvent.put newJobId]
  let status :=
    match r.2.1 with
    | [] => ERR_NONE
    | [(_, code)] => code
    | _ => ERR_MULTIPLE
  ⟨r.2.2, r.1, r.2.1, status⟩

/-- The jobs of a backlog snapshot that fail under `jobRun`, with their
error codes — the reference value for the `failed_jobs` mapping. -/
def failedOf {P : Type} (jobRun : String → P → Int) (l : List (String × P)) :
    List (String × Int) :=
  (l.filter (fun e => decide (jobRun e.1 e.2 ≠ 0))).map (fun e => (e.1, jobRun e.1 e.2))

/-- The event trace produced by executing a backlog snapshot. -/
def traceOf {P : Type} (jobRun : String → P → Int) (l : List (String × P)) :
    List RunEvent :=
  l.flatMap (fun e =>
    let c := jobRun e.1 e.2
    if c = 0 then [RunEvent.execJob e.1 c, RunEvent.removeEntry e.1]
    else [RunEvent.execJob e.1 c])

/-- The live backlog left after executing a snapshot `l` against the
backlog `backlog`. -/
def backlogAfter {P : Type} (jobRun : String → P → Int) (l : List (String × P))
    (backlog : List (String × P)) : List (String × P) :=
  l.foldl (fun b e => if jobRun e.1 e.2 = 0 then eraseKey b e.1 else b) backlog

end DWHEventsExportProcess

/-- Job runner of the concrete two-job scenario of the spec (§8): job `A`
fails with error code 5, every other job succeeds. -/
def exampleJobRun : String → Nat → Int := fun jobId _ =>
  if jobId = "A" then 5 else 0

/-- Observable events of the variable-definitions upload loop: one POST
attempt recording its `resp.ok` outcome, and one `time.sleep(retry_delay)`
between consecutive attempts. -/
inductive UploadEvent where
  | post (ok : Bool)
  | sleep (delay : Nat)
  deriving DecidableEq, Repr

namespace DWHVariableDefinitionsExportProcess

/-- `ERR_NONE` (`process.py` l.282): successful. -/
def ERR_NONE : Int := 0

/-- `ERR_EXPORT` (`process.py` l.284): configuration export error. -/
def ERR_EXPORT : Int := 101

/-- `ERR_UPLOAD` (`process.py` l.286): upload failure. -/
def ERR_UPLOAD : Int := 201

/-- Upload retry loop of `DWHVariableDefinitionsExportProcess.run`
(`process.py` l.355-386): `while not done and cnt < max_try`, one POST per
iteration; on failure, sleep `retry_delay` only when attempts remain.
`respOk attempt` is the `resp.ok` outcome of the given POST attempt; the
first argument is the attempt index, the second the remaining allowance
(`max_try - cnt`). -/
def uploadLoop (respOk : Nat → Bool) (retryDelay : Nat) :
    Nat → Nat → List UploadEvent × Bool
  | _, 0 => ([], false)
  | attempt, remaining + 1 =>
    if respOk attempt then ([UploadEvent.post true], true)
    else if remaining ≠ 0 then
      let r := uploadLoop respOk retryDelay (attempt + 1) remaining
      (UploadEvent.post false :: UploadEvent.sleep retryDelay :: r.1, r.2)
    else ([UploadEvent.post false], false)

/-- `DWHVariableDefinitionsExportProcess.run` (`process.py` l.303-394):
`error` is initialised to `ERR_EXPORT` (l.319) and — exactly as in the
source — never reassigned to `ERR_UPLOAD`; after the loop it becomes
`ERR_NONE` if `done` and otherwise keeps `ERR_EXPORT` (l.388-394).
`exportOk` abstracts whether `export_variable_definitions` raised. -/
def run (exportOk : Bool) (respOk : Nat → Bool) (maxTry retryDelay : Nat) :
    List UploadEvent × Int :=
  if exportOk then
    let r := uploadLoop respOk retryDelay 0 maxTry
    (r.1, if r.2 then ERR_NONE else ERR_EXPORT)
  else ([], ERR_EXPORT)

end DWHVariableDefinitionsExportProcess

/-- Observable effects of `DWHEventsExportJob.send_data`: the HTTP POST
of the archive, and the registration of the returned remote job id in the
Pending Remote-Jobs Queue. -/
inductive SendEvent where
  | httpPost
  | queueAppend (jobId : String)
  deriving DecidableEq, Repr

namespace DWHEventsExportJob

/-- `DWHEventsExportJob.export_events` (`process.py` l.75-94): when the
DAO yields no event for the extraction date (`events` empty), the count
stays 0 and no archive is created; otherwise the filter produces the
count and the series files, and an archive is created from them.
`events` is the result of
`dao.get_events_for_day(extract_date, var_type=VarTypes.ENERGY)`,
`runFilter` abstracts `EventsExportFilter.export_events` and `mkArchive`
abstracts `create_archive`. -/
def export_events {E F A : Type} (events : List E)
    (runFilter : List E → Nat × List F) (mkArchive : List F → A) :
    Nat × Option A :=
  if events.isEmpty then (0, none)
  else
    let r := runFilter events
    (r.1, some (mkArchive r.2))

/-- `DWHEventsExportJob.send_data` (`process.py` l.119-161): with no
archive previously created it only logs a warning and returns — no POST,
no queue registration; with an archive it POSTs it, and on a 2xx reply
(`postResp` returning the reply's job id) appends that id to the Pending
Remote-Jobs Queue, otherwise raises `ExportError` (second component
`false`). -/
def send_data {A : Type} (archive : Option A) (postResp : A → Option String) :
    List SendEvent × Bool :=
  match archive with
  | none => ([], true)
  | some a =>
    match postResp a with
    | some jobId => ([SendEvent.httpPost, SendEvent.queueAppend jobId], true)
    | none => ([SendEvent.httpPost], false)

/-- Modelled from the spec: `pycstbox.export.EventsExportJob.run`, the
runner inherited from the external pycstbox core library (not part of
this repository).  Per spec §4.2 it builds the payload with
`export_events`, then sends it with `send_data`, reporting success code 0
together with the exported-event count when nothing raised, and the
non-zero error code `errSend` when the sending step failed. -/
def run {E F A : Type} (events : List E) (runFilter : List E → Nat × List F)
    (mkArchive : List F → A) (postResp : A → Option String) (errSend : Int) :
    Int × Nat × List SendEvent :=
  let built := export_events events runFilter mkArchive
  let sent := send_data built.2 postResp
  (if sent.2 then 0 else errSend, built.1, sent.1)

end DWHEventsExportJob

/-- Calendar date (day ordinal) of a UTC instant given in seconds, as
computed by `datetime.date()`: the floor of the division by 86400. -/
def dateOfTimestamp (ts : Int) : Int := ts / 86400

/-- UTC instant (`datetime.datetime.utcnow()`) from a day ordinal and the
number of seconds already elapsed in that day. -/
def utcTimestamp (day : Int) (secOfDay : Nat) : Int := day * 86400 + secOfDay

/-- Events extraction reference date of `DWHEventsExportProcess.run`
(`process.py` l.227-229):
`(datetime.datetime.utcnow() - datetime.timedelta(days=abs(offset))).date()`
— the sign of the configured offset is ignored via `abs`. -/
def extractDate (day : Int) (secOfDay : Nat) (offset : Int) : Int :=
  dateOfTimestamp (utcTimestamp day secOfDay - (offset.natAbs : Int) * 86400)

/-- Segments of a character sequence cut at every newline (the newline
itself is dropped); a trailing newline yields a trailing empty segment. -/
def splitOnNl : List Char → List (List Char)
  | [] => [[]]
  | c :: cs =>
    if c = '\n' then [] :: splitOnNl cs
    else
      match splitOnNl cs with
      | [] => [[c]]
      | l :: ls => (c :: l) :: ls

/-- Python file line iteration never yields an empty final line after a
trailing newline: drop the one trailing empty segment if present. -/
def dropTrailingEmpty (ls : List (List Char)) : List (List Char) :=
  if ls.getLast? = some [] then ls.dropLast else ls

/-- Characters removed by Python's `str.strip()`. -/
def isStripChar (c : Char) : Bool :=
  c = ' ' || c = '\t' || c = '\n' || c = '\r' || c = '\x0b' || c = '\x0c'

/-- Python `str.strip()`: remove leading and trailing whitespace. -/
def stripChars (cs : List Char) : List Char :=
  ((cs.dropWhile isStripChar).reverse.dropWhile isStripChar).reverse

/-- `'\n'.join(...)`: the segments joined by single newlines, with no
trailing newline. -/
def joinLines : List (List Char) → List Char
  | [] => []
  | [x] => x
  | x :: y :: ys => x ++ '\n' :: joinLines (y :: ys)

namespace PendingJobsQueue

/-- `PendingJobsQueue.save` (`pending_jobs_queue.py` l.37-41): the file is
fully rewritten with `fp.writelines('\n'.join(job_ids))`. -/
def save (ids : List String) : List Char := joinLines (ids.map String.data)

/-- `PendingJobsQueue.load` (`pending_jobs_queue.py` l.30-35): iterate the
file's lines and append `job_id.strip()` for each. -/
def load (content : List Char) : List String :=
  (dropTrailingEmpty (splitOnNl content)).map (fun l => String.mk (stripChars l))

/-- `PendingJobsQueue.__init__` (`pending_jobs_queue.py` l.14-28): a
missing storage file yields an empty queue and creates the file by saving
the empty list; an existing file is loaded.  Returns the in-memory id
list and the file content. -/
def initQueue (existing : Option (List Char)) : List String × List Char :=
  match existing with
  | none => ([], save [])
  | some content => (load content, content)

/-- A job id as actually stored by the queue: non-empty, unaffected by
`strip()`, and containing no newline. -/
def WellFormedId (s : String) : Prop :=
  s.data ≠ [] ∧ stripChars s.data = s.data ∧ '\n' ∉ s.data

instance (s : String) : Decidable (WellFormedId s) := by
  unfold WellFormedId; infer_instance

end PendingJobsQueue

/-- JSON values as handled by `ProcessConfiguration.load_dict`; objects
keep their entries as association lists in insertion order. -/
inductive JValue where
  | str (s : String)
  | num (n : Int)
  | bool (b : Bool)
  | null
  | arr (elems : List JValue)
  | obj (entries : List (String × JValue))

/-- Python dict lookup (`d[k]`, `k in d`) on an object's entry list. -/
def lookupKey : List (String × JValue) → String → Option JValue
  | [], _ => none
  | e :: es, k => if e.1 = k then some e.2 else lookupKey es k

/-- Python dict assignment `d[k] = v`: replaces the existing binding, or
appends a new one when the key is absent. -/
def setKey : List (String × JValue) → String → JValue → List (String × JValue)
  | [], k, v => [(k, v)]
  | e :: es, k, v => if e.1 = k then (k, v) :: es else e :: setKey es k v

/-- `isinstance(v, dict)`. -/
def JValue.isObj : JValue → Bool
  | .obj _ => true
  | _ => false

/-- Lookup through a `JValue` that is an object; `none` otherwise. -/
def lookupJ : JValue → String → Option JValue
  | .obj ents, k => lookupKey ents k
  | _, _ => none

mutual

/-- `_deep_update(d, u)` (`process.py` l.554-560): iterate
`u.iteritems()`; a key absent from `d` receives a deep copy of the
incoming value; for a key present in `d` whose incoming value is a dict,
recurse into `d[k]`; otherwise `d[k]` is kept unchanged.  `none` models
the `TypeError`/`AttributeError` Python raises when `u` is not a dict, or
when a non-empty dict value has to be merged into a non-dict `d[k]`. -/
def deepUpdate : JValue → JValue → Option JValue
  | d, .obj entries => deepUpdateEntries d entries
  | _, _ => none

/-- The `for k, v in u.iteritems()` loop of `_deep_update`, threading the
mutated `d` through the remaining entries of `u`. -/
def deepUpdateEntries : JValue → List (String × JValue) → Option JValue
  | d, [] => some d
  | d, (k, v) :: rest =>
    match d with
    | .obj dents =>
      match lookupKey dents k with
      | none => deepUpdateEntries (.obj (setKey dents k v)) rest
      | some dv =>
        if v.isObj then
          match deepUpdate dv v with
          | some dv' => deepUpdateEntries (.obj (setKey dents k dv')) rest
          | none => none
        else deepUpdateEntries d rest
    | _ => none

end

namespace ProcessConfiguration

/-- The entries of `ProcessConfiguration.DEFAULTS` (`process.py`
l.498-513). -/
def DEFAULTS_entries : List (String × JValue) := [
  ("date_offset", .num 1),
  ("server", .obj [("connect_timeout", .num 60)]),
  ("api_urls", .obj [
    ("data_upload", .str "http://%(host)s/api/dss/sites/%(site)s/series"),
    ("defs_upload", .str "http://%(host)s/api/dss/sites/%(site)s/vardefs"),
    ("job_status", .str "http://%(host)s/api/dss/sites/%(site)s/jobs/%(job_id)s/status")]),
  ("retries", .obj [("max_attempts", .num 3), ("delay", .num 10)]),
  ("status_monitoring_period", .num 60)]

/-- `ProcessConfiguration.DEFAULTS` as a JSON object. -/
def DEFAULTS : JValue := .obj DEFAULTS_entries

/-- Merge step of `ProcessConfiguration.load_dict` (`process.py`
l.530-533): a deep copy of `DEFAULTS` updated in place by
`_deep_update(cfg, data)`; the subsequent schema validation is not
modelled. -/
def load_dict_merge (data : JValue) : Option JValue := deepUpdate DEFAULTS data

end ProcessConfiguration

/-- Entries of a configuration input that tries to override
`date_offset` and `retries.max_attempts` and adds `site_code`. -/
def exampleInputEntries : List (String × JValue) := [
  ("date_offset", .num 5),
  ("retries", .obj [("max_attempts", .num 7)]),
  ("site_code", .str "X")]

/-- The configuration value merged from `DEFAULTS` and
`exampleInputEntries`: every key present in the defaults keeps its
default value; only `site_code` comes from the input. -/
def exampleMergedConfig : JValue :=
  .obj (ProcessConfiguration.DEFAULTS_entries ++ [("site_code", JValue.str "X")])

theorem listRemove_eq_erase {α : Type} [DecidableEq α] (l : List α) (a : α)
    (h : a ∈ l) : listRemove l a = some (l.erase a) := by
  induction l with
  | nil => cases h
  | cons x xs ih =>
    by_cases hx : x = a
    · subst hx
      simp [listRemove, List.erase_cons_head]
    · have ha : a ∈ xs := by
        cases h with
        | head => exact absurd rfl hx
        | tail _ h => exact h
      simp [listRemove, hx, ih ha, List.erase_cons_tail, (by simpa using hx : ¬x == a)]

theorem listRemove_absent {α : Type} [DecidableEq α] (l : List α) (a : α)
    (h : a ∉ l) : listRemove l a = none := by
  induction l with
  | nil => rfl
  | cons x xs ih =>
    have hx : x ≠ a := fun he => h (he ▸ List.mem_cons_self x xs)
    have ha : a ∉ xs := fun hm => h (List.mem_cons_of_mem x hm)
    simp [listRemove, hx, ih ha]

namespace Worker

theorem pollGo_eq_eraseTerminals (resp : String → Option Int) :
    ∀ l q : List String, List.Sublist l q →
      pollGo resp l q = some (eraseTerminals resp l q) := by
  intro l
  induction l with
  | nil => intro q _; rfl
  | cons jobId rest ih =>
    intro q h
    have hmem : jobId ∈ q := h.subset (List.mem_cons_self jobId rest)
    have hrest : List.Sublist rest q := (List.sublist_cons_self jobId rest).trans h
    have herase : List.Sublist rest (q.erase jobId) := by
      have h2 := h.erase jobId
      rwa [List.erase_cons_head] at h2
    cases hresp : resp jobId with
    | none =>
      simp only [pollGo, hresp, eraseTerminals, List.foldl_cons, keeps, if_pos]
      exact ih q hrest
    | some c =>
      by_cases hc0 : c = 0
      · subst hc0
        simp only [pollGo, hresp, if_pos rfl, listRemove_eq_erase q jobId hmem,
          Option.bind_some, eraseTerminals, List.foldl_cons, keeps, hresp]
        simpa [eraseTerminals] using ih (q.erase jobId) herase
      · by_cases hcneg : c < 0
        · simp only [pollGo, hresp, if_neg hc0, if_pos hcneg,
            listRemove_eq_erase q jobId hmem, Option.bind_some, eraseTerminals,
            List.foldl_cons, keeps, hresp]
          have hk : ¬(0 < c) := by omega
          simpa [eraseTerminals, hk] using ih (q.erase jobId) herase
        · have hk : 0 < c := by omega
          simp only [pollGo, hresp, if_neg hc0, if_neg hcneg, eraseTerminals,
            List.foldl_cons, keeps, hresp, decide_eq_true hk, if_pos]
          exact ih q hrest

theorem eraseTerminals_append (resp : String → Option Int) :
    ∀ l c : List String, l.Nodup → (∀ i ∈ l, i ∉ c) →
      eraseTerminals resp l (c ++ l) = c ++ l.filter (keeps resp) := by
  intro l
  induction l with
  | nil => intro c _ _; simp [eraseTerminals]
  | cons a rest ih =>
    intro c hnd hc
    have hna : a ∉ rest := (List.nodup_cons.mp hnd).1
    have hndr : rest.Nodup := (List.nodup_cons.mp hnd).2
    have hac : a ∉ c := hc a (List.mem_cons_self a rest)
    cases hk : keeps resp a with
    | false =>
      have hstep : (c ++ a :: rest).erase a = c ++ rest := by
        rw [List.erase_append_right _ hac, List.erase_cons_head]
      simp only [eraseTerminals, List.foldl_cons, hk, if_neg, Bool.false_eq_true,
        not_false_eq_true, hstep]
      have := ih c hndr (fun i hi => hc i (List.mem_cons_of_mem a hi))
      simpa [eraseTerminals, List.filter_cons, hk] using this
    | true =>
      have hshift : c ++ a :: rest = (c ++ [a]) ++ rest := by simp
      simp only [eraseTerminals, List.foldl_cons, hk, if_pos, hshift]
      have hc' : ∀ i ∈ rest, i ∉ c ++ [a] := by
        intro i hi
        simp only [List.mem_append, List.mem_singleton]
        rintro (h | h)
        · exact hc i (List.mem_cons_of_mem a hi) h
        · exact hna (h ▸ hi)
      have := ih (c ++ [a]) hndr hc'
      simpa [eraseTerminals, List.filter_cons, hk] using this

end Worker

/-- C4: in one polling pass of the Status Watcher over the Pending
Remote-Jobs Queue, an id whose status response has code 0 is removed, an
id with a negative code is removed, an id with a positive code stays, and
an id whose status request failed at the HTTP level stays: the queue
afterwards is exactly the ids kept by `Worker.keeps` (no `remove` call
raises during the pass). -/
theorem watcher_poll_terminal_transitions (q : List String)
    (resp : String → Option Int) (hnd : q.Nodup) :
    Worker.pollPass q resp = some (q.filter (Worker.keeps resp)) := by
  unfold Worker.pollPass
  rw [Worker.pollGo_eq_eraseTerminals resp q q (List.Sublist.refl q)]
  have := Worker.eraseTerminals_append resp q [] hnd (by intro i _; simp)
  simpa using this

/-- Witness for C4: on the queue `{J1, J2, J3}` with the example
responses, one poll pass leaves exactly `{J3}`. -/
theorem watcher_poll_terminal_transitions_witness :
    Worker.pollPass ["J1", "J2", "J3"] exampleResponses = some ["J3"] :=
  (watcher_poll_terminal_transitions ["J1", "J2", "J3"] exampleResponses
    (by decide)).trans (by decide)

/-- C6 counterexample: after `remove` succeeds once on id `j1`, the second
`remove` of the same id raises `ValueError` (modelled as `none`) instead
of being a no-op, so the exception does escape to the caller. -/
theorem remove_twice_raises_cex :
    PendingJobsQueue.remove ["j1"] "j1" = some [] ∧
      PendingJobsQueue.remove ([] : List String) "j1" = none := by
  constructor <;> rfl

/-- C6 (amended): removing an id that is not in the Pending Remote-Jobs
Queue raises `ValueError` (modelled as `none`): the removal is not a
silent no-op; the in-memory list and the storage file are left unchanged
because the exception propagates before `save()` is reached. -/
theorem remove_absent_raises (ids : List String) (jobId : String)
    (h : jobId ∉ ids) : PendingJobsQueue.remove ids jobId = none :=
  listRemove_absent ids jobId h

/-- Witness for the amended C6. -/
theorem remove_absent_raises_witness :
    PendingJobsQueue.remove ["a"] "b" = none :=
  remove_absent_raises ["a"] "b" (by decide)

/-- C7 counterexample: appending id `j1` to a queue already holding `j1`
yields two occurrences of `j1`, contradicting the no-duplicates claim. -/
theorem append_duplicate_cex :
    PendingJobsQueue.append ["j1"] "j1" = ["j1", "j1"] ∧
      List.count "j1" (PendingJobsQueue.append ["j1"] "j1") = 2 := by
  constructor <;> rfl

/-- C7 (amended): the Pending Remote-Jobs Queue is a plain persistent
list, not a set: `append` always adds one more occurrence of the id, so
appending an id that is already present creates a duplicate entry (at
least two occurrences). -/
theorem append_always_adds (ids : List String) (jobId : String) :
    List.count jobId (PendingJobsQueue.append ids jobId) = List.count jobId ids + 1 ∧
      (jobId ∈ ids → 2 ≤ List.count jobId (PendingJobsQueue.append ids jobId)) := by
  have hcnt : List.count jobId (PendingJobsQueue.append ids jobId)
      = List.count jobId ids + 1 := by
    simp [PendingJobsQueue.append, List.count_append, List.count_singleton_self]
  refine ⟨hcnt, fun h => ?_⟩
  have hpos : 0 < List.count jobId ids := List.count_pos_iff.mpr h
  omega

/-- Witness for the amended C7. -/
theorem append_always_adds_witness :
    2 ≤ List.count "x" (PendingJobsQueue.append ["x"] "x") :=
  (append_always_adds ["x"] "x").2 (by decide)

namespace DWHEventsExportProcess

theorem runLoop_spec {P : Type} (jobRun : String → P → Int) :
    ∀ (l backlog : List (String × P)) (failed : List (String × Int))
      (trace : List RunEvent),
      runLoop jobRun l backlog failed trace =
        (backlogAfter jobRun l backlog, failed ++ failedOf jobRun l,
          trace ++ traceOf jobRun l) := by
  intro l
  induction l with
  | nil =>
    intro backlog failed trace
    simp [runLoop, backlogAfter, failedOf, traceOf]
  | cons e rest ih =>
    intro backlog failed trace
    obtain ⟨jobId, parms⟩ := e
    by_cases hc : jobRun jobId parms = 0
    · simp [runLoop, hc, ih, backlogAfter, failedOf, traceOf, List.filter_cons,
        List.flatMap_cons, List.append_assoc]
    · simp [runLoop, hc, ih, backlogAfter, failedOf, traceOf, List.filter_cons,
        List.flatMap_cons, List.append_assoc]

theorem run_eq {P : Type} (backlog0 : List (String × P)) (newJobId : String)
    (newParms : P) (jobRun : String → P → Int) :
    run backlog0 newJobId newParms jobRun =
      ⟨RunEvent.put newJobId
          :: traceOf jobRun (backlog0 ++ [(newJobId, newParms)]),
        backlogAfter jobRun (backlog0 ++ [(newJobId, newParms)])
          (backlog0 ++ [(newJobId, newParms)]),
        failedOf jobRun (backlog0 ++ [(newJobId, newParms)]),
        match failedOf jobRun (backlog0 ++ [(newJobId, newParms)]) with
        | [] => ERR_NONE
        | [(_, code)] => code
        | _ => ERR_MULTIPLE⟩ := by
  simp only [run, runLoop_spec jobRun, List.nil_append, List.singleton_append]

theorem mem_eraseKey_of_ne {P : Type} (k : String) :
    ∀ (l : List (String × P)) (e : String × P), e ∈ l → e.1 ≠ k →
      e ∈ eraseKey l k := by
  intro l
  induction l with
  | nil => intro e he; cases he
  | cons x xs ih =>
    intro e he hne
    rcases List.mem_cons.mp he with rfl | hmem
    · have hx : e.1 ≠ k := hne
      simp [eraseKey, hx]
    · by_cases hx : x.1 = k
      · simpa [eraseKey, hx] using hmem
      · simp only [eraseKey, hx, if_neg, not_false_eq_true, List.mem_cons]
        exact Or.inr (ih e hmem hne)

theorem mem_backlogAfter {P : Type} (jobRun : String → P → Int) :
    ∀ (l backlog : List (String × P)) (e : String × P), e ∈ backlog →
      (∀ e' ∈ l, jobRun e'.1 e'.2 = 0 → e'.1 ≠ e.1) →
      e ∈ backlogAfter jobRun l backlog := by
  intro l
  induction l with
  | nil => intro backlog e he _; simpa [backlogAfter] using he
  | cons x rest ih =>
    intro backlog e he hl
    by_cases h0 : jobRun x.1 x.2 = 0
    · have hne : e.1 ≠ x.1 :=
        fun h => hl x (List.mem_cons_self x rest) h0 h.symm
      have : e ∈ eraseKey backlog x.1 := mem_eraseKey_of_ne x.1 backlog e he hne
      simpa [backlogAfter, List.foldl_cons, h0] using
        ih (eraseKey backlog x.1) e this
          (fun e' he' => hl e' (List.mem_cons_of_mem x he'))
    · simpa [backlogAfter, List.foldl_cons, h0] using
        ih backlog e he (fun e' he' => hl e' (List.mem_cons_of_mem x he'))

theorem eq_of_keys_nodup {P : Type} :
    ∀ l : List (String × P), (l.map Prod.fst).Nodup →
      ∀ e₁ ∈ l, ∀ e₂ ∈ l, e₁.1 = e₂.1 → e₁ = e₂ := by
  intro l
  induction l with
  | nil => intro _ e₁ h; cases h
  | cons x xs ih =>
    intro hnd e₁ h₁ e₂ h₂ hk
    have hx : x.1 ∉ xs.map Prod.fst := (List.nodup_cons.mp hnd).1
    have hxs : (xs.map Prod.fst).Nodup := (List.nodup_cons.mp hnd).2
    rcases List.mem_cons.mp h₁ with rfl | hm₁
    · rcases List.mem_cons.mp h₂ with rfl | hm₂
      · rfl
      · exact absurd (hk ▸ List.mem_map_of_mem Prod.fst hm₂) hx
    · rcases List.mem_cons.mp h₂ with rfl | hm₂
      · exact absurd (hk ▸ List.mem_map_of_mem Prod.fst hm₁) hx
      · exact ih hxs e₁ hm₁ e₂ hm₂ hk

end DWHEventsExportProcess

/-- C1: in every run of the events Export Process, the new backlog entry
is put into the Backlog before any Export Job executes (the `put` event
heads the trace and every `execJob` event occurs strictly later); a
backlog entry is removed only when its job's execution returned the
success code 0; and every entry whose job returned a non-zero code is
still in the Backlog at the end of the run. -/
theorem events_export_crash_safety {P : Type} (backlog0 : List (String × P))
    (newJobId : String) (newParms : P) (jobRun : String → P → Int) :
    (DWHEventsExportProcess.run backlog0 newJobId newParms jobRun).trace.head?
        = some (RunEvent.put newJobId) ∧
    (∀ n jobId c,
      (DWHEventsExportProcess.run backlog0 newJobId newParms jobRun).trace.get? n
          = some (RunEvent.execJob jobId c) → 0 < n) ∧
    (∀ jobId,
      RunEvent.removeEntry jobId
          ∈ (DWHEventsExportProcess.run backlog0 newJobId newParms jobRun).trace →
      ∃ parms, (jobId, parms) ∈ backlog0 ++ [(newJobId, newParms)] ∧
        jobRun jobId parms = 0) ∧
    (((backlog0 ++ [(newJobId, newParms)]).map Prod.fst).Nodup →
      ∀ jobId parms, (jobId, parms) ∈ backlog0 ++ [(newJobId, newParms)] →
        jobRun jobId parms ≠ 0 →
        (jobId, parms)
            ∈ (DWHEventsExportProcess.run backlog0 newJobId newParms jobRun).backlog) := by
  rw [DWHEventsExportProcess.run_eq]
  refine ⟨rfl, ?_, ?_, ?_⟩
  · intro n jobId c hget
    cases n with
    | zero => simp at hget
    | succ k => exact Nat.succ_pos k
  · intro jobId hmem
    have hmem' : RunEvent.removeEntry jobId
        ∈ DWHEventsExportProcess.traceOf jobRun (backlog0 ++ [(newJobId, newParms)]) := by
      rcases List.mem_cons.mp hmem with h | h
      · cases h
      · exact h
    obtain ⟨e, he, hin⟩ := List.mem_flatMap.mp hmem'
    by_cases hc : jobRun e.1 e.2 = 0
    · simp only [hc, if_pos] at hin
      rcases List.mem_cons.mp hin with h | h
      · cases h
      · rcases List.mem_cons.mp h with h | h
        · cases h
          exact ⟨e.2, by simpa using he, hc⟩
        · cases h
    · simp only [hc, if_neg, not_false_eq_true] at hin
      rcases List.mem_cons.mp hin with h | h
      · cases h
      · cases h
  · intro hnd jobId parms hmem hne
    refine DWHEventsExportProcess.mem_backlogAfter jobRun _ _ (jobId, parms) hmem ?_
    intro e' he' h0 hkey
    have : e' = (jobId, parms) :=
      DWHEventsExportProcess.eq_of_keys_nodup _ hnd e' he' (jobId, parms) hmem hkey
    rw [this] at h0
    exact hne h0

/-- Witness for C1: with backlog `{A ↦ fails with 5}` and new job `B`
(which succeeds), the trace starts with `put B` and entry `A` is still in
the backlog after the run. -/
theorem events_export_crash_safety_witness :
    ("A", 0) ∈ (DWHEventsExportProcess.run [("A", (0 : Nat))] "B" 0 exampleJobRun).backlog ∧
    (DWHEventsExportProcess.run [("A", (0 : Nat))] "B" 0 exampleJobRun).trace.head?
        = some (RunEvent.put "B") := by
  have h := events_export_crash_safety [("A", (0 : Nat))] "B" 0 exampleJobRun
  exact ⟨h.2.2.2 (by decide) "A" 0 (by decide) (by decide), h.1⟩

/-- C2: after a run of the events Export Process, `failed_jobs` holds
exactly the failed jobs with their own error codes; the aggregate status
is 0 when no job failed (equivalently, `failed_jobs` is empty), the
single failed job's specific code when exactly one failed, and the
generic `ERR_MULTIPLE` code when more than one failed. -/
theorem events_export_aggregate_status {P : Type} (backlog0 : List (String × P))
    (newJobId : String) (newParms : P) (jobRun : String → P → Int) :
    (DWHEventsExportProcess.run backlog0 newJobId newParms jobRun).failedJobs
        = DWHEventsExportProcess.failedOf jobRun (backlog0 ++ [(newJobId, newParms)]) ∧
    (DWHEventsExportProcess.failedOf jobRun (backlog0 ++ [(newJobId, newParms)]) = []
        ↔ ∀ e ∈ backlog0 ++ [(newJobId, newParms)], jobRun e.1 e.2 = 0) ∧
    (DWHEventsExportProcess.failedOf jobRun (backlog0 ++ [(newJobId, newParms)]) = [] →
      (DWHEventsExportProcess.run backlog0 newJobId newParms jobRun).status
          = DWHEventsExportProcess.ERR_NONE) ∧
    (∀ jobId c,
      DWHEventsExportProcess.failedOf jobRun (backlog0 ++ [(newJobId, newParms)])
          = [(jobId, c)] →
      (DWHEventsExportProcess.run backlog0 newJobId newParms jobRun).status = c) ∧
    (2 ≤ (DWHEventsExportProcess.failedOf jobRun
          (backlog0 ++ [(newJobId, newParms)])).length →
      (DWHEventsExportProcess.run backlog0 newJobId newParms jobRun).status
          = DWHEventsExportProcess.ERR_MULTIPLE) := by
  rw [DWHEventsExportProcess.run_eq]
  refine ⟨rfl, ?_, ?_, ?_, ?_⟩
  · constructor
    · intro hnil e he
      have := List.filter_eq_nil_iff.mp (List.map_eq_nil_iff.mp hnil) e he
      simpa using this
    · intro hall
      apply List.map_eq_nil_iff.mpr
      apply List.filter_eq_nil_iff.mpr
      intro e he
      simpa using hall e he
  · intro hnil
    simp [hnil]
  · intro jobId c hone
    simp [hone]
  · intro hlen
    rcases hfo : DWHEventsExportProcess.failedOf jobRun
        (backlog0 ++ [(newJobId, newParms)]) with _ | ⟨a, _ | ⟨b, t'⟩⟩
    · rw [hfo] at hlen; simp at hlen
    · rw [hfo] at hlen; simp at hlen
    · rfl

/-- Witness for C2: with backlog `{A ↦ fails with 5}` and new job `B`
succeeding, exactly one job fails, `failed_jobs = {A ↦ 5}`, and the run
returns `A`'s specific code 5 (not the generic multiple-failures code). -/
theorem events_export_aggregate_status_witness :
    (DWHEventsExportProcess.run [("A", (0 : Nat))] "B" 0 exampleJobRun).status = 5 ∧
    (DWHEventsExportProcess.run [("A", (0 : Nat))] "B" 0 exampleJobRun).failedJobs
        = [("A", 5)] := by
  have h := events_export_aggregate_status [("A", (0 : Nat))] "B" 0 exampleJobRun
  exact ⟨h.2.2.2.1 "A" 5 (by decide), h.1.trans (by decide)⟩

/-- C3 (code bug): with `max_attempts = 3`, `retry_delay = 10` and every
POST failing at the HTTP level, the loop performs exactly 3 POST attempts
with one sleep between consecutive attempts and none after the last — but
the run returns `ERR_EXPORT` (101, declared as "configuration export
error"), not the declared upload-failure code `ERR_UPLOAD` (201), because
the source never assigns `ERR_UPLOAD` to its `error` variable.  When an
attempt succeeds (here the second), no further attempts occur and the
success code 0 is returned. -/
theorem vardefs_upload_failure_returns_export_code :
    DWHVariableDefinitionsExportProcess.run true (fun _ => false) 3 10 =
      ([UploadEvent.post false, UploadEvent.sleep 10, UploadEvent.post false,
        UploadEvent.sleep 10, UploadEvent.post false],
        DWHVariableDefinitionsExportProcess.ERR_EXPORT) ∧
    DWHVariableDefinitionsExportProcess.ERR_EXPORT ≠
      DWHVariableDefinitionsExportProcess.ERR_UPLOAD ∧
    DWHVariableDefinitionsExportProcess.run true (fun i => i == 1) 3 10 =
      ([UploadEvent.post false, UploadEvent.sleep 10, UploadEvent.post true],
        DWHVariableDefinitionsExportProcess.ERR_NONE) := by
  refine ⟨?_, by decide, ?_⟩ <;> rfl

/-- C9: for every wall-clock instant (day ordinal plus in-day seconds)
and every configured day offset, the extraction date equals the current
date minus the absolute value of the offset in days, hence is never
strictly after the current date, regardless of the offset's sign. -/
theorem extract_date_offset_abs (day : Int) (secOfDay : Nat) (offset : Int)
    (h : secOfDay < 86400) :
    extractDate day secOfDay offset
        = dateOfTimestamp (utcTimestamp day secOfDay) - (offset.natAbs : Int) ∧
    extractDate day secOfDay offset ≤ dateOfTimestamp (utcTimestamp day secOfDay) ∧
    dateOfTimestamp (utcTimestamp day secOfDay) = day := by
  have key : ∀ d : Int, (d * 86400 + (secOfDay : Int)) / 86400 = d := by
    intro d
    rw [add_comm, Int.add_mul_ediv_right _ _ (by norm_num : (86400 : Int) ≠ 0)]
    rw [Int.ediv_eq_zero_of_lt (Int.ofNat_nonneg _) (by exact_mod_cast h)]
    simp
  have hshift : utcTimestamp day secOfDay - (offset.natAbs : Int) * 86400
      = (day - (offset.natAbs : Int)) * 86400 + (secOfDay : Int) := by
    unfold utcTimestamp; ring
  have hext : extractDate day secOfDay offset = day - (offset.natAbs : Int) := by
    unfold extractDate dateOfTimestamp
    rw [hshift, key]
  have hcur : dateOfTimestamp (utcTimestamp day secOfDay) = day := by
    unfold dateOfTimestamp utcTimestamp
    exact key day
  refine ⟨by rw [hext, hcur], ?_, hcur⟩
  rw [hext, hcur]
  have : (0 : Int) ≤ (offset.natAbs : Int) := Int.ofNat_nonneg _
  omega

/-- Witness for C9: at day ordinal 19000, one hour into the day, with the
(negative) configured offset -2, the extraction date is 18998 and does
not exceed the current date. -/
theorem extract_date_offset_abs_witness :
    extractDate 19000 3600 (-2) = 18998 ∧ extractDate 19000 3600 (-2) ≤ 19000 := by
  have h := extract_date_offset_abs 19000 3600 (-2) (by decide)
  constructor
  · rw [h.1, h.2.2]; decide
  · exact h.2.2 ▸ h.2.1

/-- C5: a job whose data source yields no matching events for the
extraction date reports a zero exported-event count and creates no
archive, and the whole job run reports success (code 0) with count 0,
performing no HTTP POST and registering no remote job id in the Pending
Remote-Jobs Queue (the effect trace is empty). -/
theorem zero_record_job_vacuous_success {E F A : Type}
    (runFilter : List E → Nat × List F) (mkArchive : List F → A)
    (postResp : A → Option String) (errSend : Int) :
    DWHEventsExportJob.export_events ([] : List E) runFilter mkArchive
        = (0, none) ∧
    DWHEventsExportJob.run ([] : List E) runFilter mkArchive postResp errSend
        = (0, 0, []) := by
  constructor <;> rfl

theorem splitOnNl_ne_nil : ∀ cs : List Char, splitOnNl cs ≠ [] := by
  intro cs
  induction cs with
  | nil => simp [splitOnNl]
  | cons c cs ih =>
    by_cases hc : c = '\n'
    · simp [splitOnNl, hc]
    · rcases h : splitOnNl cs with _ | ⟨l, ls⟩
      · exact absurd h ih
      · simp [splitOnNl, hc, h]

theorem splitOnNl_no_nl : ∀ cs : List Char, '\n' ∉ cs → splitOnNl cs = [cs] := by
  intro cs
  induction cs with
  | nil => intro _; rfl
  | cons c cs ih =>
    intro h
    have hc : c ≠ '\n' := fun he => h (he ▸ List.mem_cons_self c cs)
    have hcs : '\n' ∉ cs := fun hm => h (List.mem_cons_of_mem c hm)
    simp [splitOnNl, hc, ih hcs]

theorem splitOnNl_append_nl (rest : List Char) :
    ∀ x : List Char, '\n' ∉ x →
      splitOnNl (x ++ '\n' :: rest) = x :: splitOnNl rest := by
  intro x
  induction x with
  | nil => intro _; simp [splitOnNl]
  | cons c cs ih =>
    intro h
    have hc : c ≠ '\n' := fun he => h (he ▸ List.mem_cons_self c cs)
    have hcs : '\n' ∉ cs := fun hm => h (List.mem_cons_of_mem c hm)
    simp only [List.cons_append, splitOnNl, hc, if_neg, not_false_eq_true,
      List.append_eq, ih hcs]

theorem dropTrailingEmpty_cons (x : List Char) (ls : List (List Char))
    (h : ls ≠ []) :
    dropTrailingEmpty (x :: ls) = x :: dropTrailingEmpty ls := by
  obtain ⟨y, ys, rfl⟩ := List.exists_cons_of_ne_nil h
  unfold dropTrailingEmpty
  rw [List.getLast?_cons_cons]
  by_cases he : (y :: ys).getLast? = some []
  · rw [if_pos he, if_pos he, List.dropLast_cons_of_ne_nil (List.cons_ne_nil y ys)]
  · rw [if_neg he, if_neg he]

theorem load_save (ids : List String)
    (h : ∀ s ∈ ids, PendingJobsQueue.WellFormedId s) :
    PendingJobsQueue.load (PendingJobsQueue.save ids) = ids := by
  induction ids with
  | nil => rfl
  | cons x xs ih =>
    obtain ⟨hne, hstrip, hnl⟩ := h x (List.mem_cons_self x xs)
    have hxs : ∀ s ∈ xs, PendingJobsQueue.WellFormedId s :=
      fun s hs => h s (List.mem_cons_of_mem x hs)
    cases xs with
    | nil =>
      unfold PendingJobsQueue.load PendingJobsQueue.save
      rw [show (([x].map String.data) : List (List Char)) = [x.data] from rfl,
        show joinLines [x.data] = x.data from rfl, splitOnNl_no_nl x.data hnl]
      unfold dropTrailingEmpty
      have : ([x.data] : List (List Char)).getLast? = some x.data := rfl
      rw [this, if_neg (by simpa using hne)]
      simp [hstrip]
    | cons y ys =>
      unfold PendingJobsQueue.load PendingJobsQueue.save at ih ⊢
      have hsave : joinLines ((x :: y :: ys).map String.data)
          = x.data ++ '\n' :: joinLines ((y :: ys).map String.data) := rfl
      rw [hsave, splitOnNl_append_nl _ x.data hnl,
        dropTrailingEmpty_cons _ _ (splitOnNl_ne_nil _), List.map_cons]
      rw [ih hxs, hstrip]

/-- C8: a `PendingJobsQueue` constructed over a missing storage file is
empty and creates the (empty) file; every mutating operation (`append`,
`remove`, `clear`) fully rewrites the file via `save`, and loading the
rewritten file reproduces the in-memory id list (for ids as actually
stored: non-empty, strip-invariant, newline-free); loading an existing
file yields exactly the saved newline-delimited ids. -/
theorem pending_queue_persistence :
    PendingJobsQueue.initQueue none = ([], []) ∧
    (∀ ids jobId, (∀ s ∈ ids, PendingJobsQueue.WellFormedId s) →
      PendingJobsQueue.WellFormedId jobId →
      PendingJobsQueue.load (PendingJobsQueue.save (PendingJobsQueue.append ids jobId))
        = PendingJobsQueue.append ids jobId) ∧
    (∀ ids jobId ids', (∀ s ∈ ids, PendingJobsQueue.WellFormedId s) →
      PendingJobsQueue.remove ids jobId = some ids' →
      PendingJobsQueue.load (PendingJobsQueue.save ids') = ids') ∧
    (∀ ids, PendingJobsQueue.load (PendingJobsQueue.save (PendingJobsQueue.clear ids))
      = PendingJobsQueue.clear ids) ∧
    (∀ ids, (∀ s ∈ ids, PendingJobsQueue.WellFormedId s) →
      PendingJobsQueue.initQueue (some (PendingJobsQueue.save ids)) = (ids, PendingJobsQueue.save ids)) := by
  refine ⟨rfl, ?_, ?_, ?_, ?_⟩
  · intro ids jobId hids hjob
    apply load_save
    intro s hs
    rcases List.mem_append.mp hs with h | h
    · exact hids s h
    · rcases List.mem_singleton.mp h with rfl
      exact hjob
  · intro ids jobId ids' hids hrem
    have hmem : jobId ∈ ids := by
      by_contra hab
      rw [PendingJobsQueue.remove, listRemove_absent ids jobId hab] at hrem
      cases hrem
    rw [PendingJobsQueue.remove, listRemove_eq_erase ids jobId hmem] at hrem
    have hsub : ids' = ids.erase jobId := by
      injection hrem with h; exact h.symm
    apply load_save
    intro s hs
    exact hids s ((ids.erase_sublist jobId).subset (hsub ▸ hs))
  · intro ids
    rfl
  · intro ids hids
    have hini : PendingJobsQueue.initQueue (some (PendingJobsQueue.save ids))
        = (PendingJobsQueue.load (PendingJobsQueue.save ids),
            PendingJobsQueue.save ids) := rfl
    rw [hini, load_save ids hids]

/-- Witness for C8: appending `b2` to a queue holding `a1` rewrites the
file to `a1\nb2`, and loading it back yields `[a1, b2]`. -/
theorem pending_queue_persistence_witness :
    PendingJobsQueue.load (PendingJobsQueue.save (PendingJobsQueue.append ["a1"] "b2"))
      = ["a1", "b2"] :=
  pending_queue_persistence.2.1 ["a1"] "b2"
    (by intro s hs; rcases List.mem_singleton.mp hs with rfl; decide) (by decide)

theorem lookupKey_setKey_self (dents : List (String × JValue)) (k : String)
    (v : JValue) : lookupKey (setKey dents k v) k = some v := by
  induction dents with
  | nil => simp [setKey, lookupKey]
  | cons e es ih =>
    by_cases he : e.1 = k
    · simp [setKey, he, lookupKey]
    · simp [setKey, he, lookupKey, ih]

theorem lookupKey_setKey_ne (dents : List (String × JValue)) (k k' : String)
    (v : JValue) (hne : k ≠ k') :
    lookupKey (setKey dents k' v) k = lookupKey dents k := by
  induction dents with
  | nil => simp [setKey, lookupKey, Ne.symm hne]
  | cons e es ih =>
    by_cases he : e.1 = k'
    · have h2 : e.1 ≠ k := by rw [he]; exact Ne.symm hne
      simp [setKey, he, lookupKey, Ne.symm hne, h2]
    · by_cases hek : e.1 = k
      · simp [setKey, he, lookupKey, hek, hne]
      · simp [setKey, he, lookupKey, hek, ih]

theorem isObj_false_cases (v : JValue) (hv : ¬v.isObj = true) : v.isObj = false := by
  revert hv; cases hv2 : v.isObj <;> simp

theorem deepUpdateEntries_preserves (k : String) (w : JValue) :
    ∀ (entries dents : List (String × JValue)) (res : JValue),
      deepUpdateEntries (JValue.obj dents) entries = some res →
      lookupKey dents k = some w →
      (∀ e ∈ entries, e.1 ≠ k) →
      lookupJ res k = some w := by
  intro entries
  induction entries with
  | nil =>
    intro dents res hres hk _
    simp only [deepUpdateEntries, Option.some.injEq] at hres
    subst hres
    simp [lookupJ, hk]
  | cons e rest ih =>
    intro dents res hres hk hall
    obtain ⟨k', v⟩ := e
    have hk'ne : k' ≠ k := hall (k', v) (List.mem_cons_self _ _)
    have hallr : ∀ e ∈ rest, e.1 ≠ k := fun e he => hall e (List.mem_cons_of_mem _ he)
    simp only [deepUpdateEntries] at hres
    rcases hlk : lookupKey dents k' with _ | dv <;> simp only [hlk] at hres
    · refine ih _ res hres ?_ hallr
      rw [lookupKey_setKey_ne dents k k' v (Ne.symm hk'ne)]
      exact hk
    · by_cases hv : v.isObj = true
      · simp only [hv, if_true] at hres
        rcases hdu : deepUpdate dv v with _ | dv' <;> simp only [hdu] at hres
        · cases hres
        · refine ih _ res hres ?_ hallr
          rw [lookupKey_setKey_ne dents k k' dv' (Ne.symm hk'ne)]
          exact hk
      · simp only [isObj_false_cases v hv, Bool.false_eq_true, if_false] at hres
        exact ih dents res hres hk hallr

theorem deepUpdateEntries_keeps_nonobj (k : String) (dv : JValue)
    (hobj : dv.isObj = false) :
    ∀ (entries dents : List (String × JValue)) (res : JValue),
      deepUpdateEntries (JValue.obj dents) entries = some res →
      lookupKey dents k = some dv →
      lookupJ res k = some dv := by
  intro entries
  induction entries with
  | nil =>
    intro dents res hres hk
    simp only [deepUpdateEntries, Option.some.injEq] at hres
    subst hres
    simp [lookupJ, hk]
  | cons e rest ih =>
    intro dents res hres hk
    obtain ⟨k', v⟩ := e
    simp only [deepUpdateEntries] at hres
    by_cases hkk : k' = k
    · subst hkk
      simp only [hk] at hres
      by_cases hv : v.isObj = true
      · cases v with
        | obj ventries =>
          simp only [JValue.isObj, if_true] at hres
          cases ventries with
          | nil =>
            simp only [deepUpdate, deepUpdateEntries] at hres
            refine ih _ res hres ?_
            exact lookupKey_setKey_self dents k' dv
          | cons c cs =>
            obtain ⟨ck, cv⟩ := c
            cases dv <;>
              simp [deepUpdate, deepUpdateEntries, JValue.isObj] at hres hobj
        | str s => simp [JValue.isObj] at hv
        | num n => simp [JValue.isObj] at hv
        | bool b => simp [JValue.isObj] at hv
        | null => simp [JValue.isObj] at hv
        | arr elems => simp [JValue.isObj] at hv
      · simp only [isObj_false_cases v hv, Bool.false_eq_true, if_false] at hres
        exact ih dents res hres hk
    · rcases hlk : lookupKey dents k' with _ | dv0 <;> simp only [hlk] at hres
      · refine ih _ res hres ?_
        rw [lookupKey_setKey_ne dents k k' v (Ne.symm hkk)]
        exact hk
      · by_cases hv : v.isObj = true
        · simp only [hv, if_true] at hres
          rcases hdu : deepUpdate dv0 v with _ | dv' <;> simp only [hdu] at hres
          · cases hres
          · refine ih _ res hres ?_
            rw [lookupKey_setKey_ne dents k k' dv' (Ne.symm hkk)]
            exact hk
        · simp only [isObj_false_cases v hv, Bool.false_eq_true, if_false] at hres
          exact ih dents res hres hk

theorem deepUpdateEntries_absent (k : String) (v0 : JValue) :
    ∀ (entries dents : List (String × JValue)) (res : JValue),
      deepUpdateEntries (JValue.obj dents) entries = some res →
      (entries.map Prod.fst).Nodup →
      lookupKey dents k = none →
      (k, v0) ∈ entries →
      lookupJ res k = some v0 := by
  intro entries
  induction entries with
  | nil => intro dents res _ _ _ hmem; cases hmem
  | cons e rest ih =>
    intro dents res hres hnd hk hmem
    obtain ⟨k', v⟩ := e
    have hk'nin : k' ∉ rest.map Prod.fst := (List.nodup_cons.mp hnd).1
    have hndr : (rest.map Prod.fst).Nodup := (List.nodup_cons.mp hnd).2
    simp only [deepUpdateEntries] at hres
    rcases List.mem_cons.mp hmem with heq | hmemr
    · have hkk : k' = k := congrArg Prod.fst heq.symm
      have hvv : v = v0 := congrArg Prod.snd heq.symm
      subst hkk
      subst hvv
      simp only [hk] at hres
      refine deepUpdateEntries_preserves k' v rest _ res hres
        (lookupKey_setKey_self dents k' v) ?_
      intro e he hke
      exact hk'nin (hke ▸ List.mem_map_of_mem Prod.fst he)
    · have hkk : k' ≠ k := by
        intro h
        exact hk'nin (h ▸ List.mem_map_of_mem Prod.fst hmemr)
      rcases hlk : lookupKey dents k' with _ | dv0 <;> simp only [hlk] at hres
      · refine ih _ res hres hndr ?_ hmemr
        rw [lookupKey_setKey_ne dents k k' v (Ne.symm hkk)]
        exact hk
      · by_cases hv : v.isObj = true
        · simp only [hv, if_true] at hres
          rcases hdu : deepUpdate dv0 v with _ | dv' <;> simp only [hdu] at hres
          · cases hres
          · refine ih _ res hres hndr ?_ hmemr
            rw [lookupKey_setKey_ne dents k k' dv' (Ne.symm hkk)]
            exact hk
        · simp only [isObj_false_cases v hv, Bool.false_eq_true, if_false] at hres
          exact ih dents res hres hndr hk hmemr

/-- C10: in the `load_dict` merge of an input dictionary into a deep copy
of `DEFAULTS` via `_deep_update`, an input value is bound in the result
only for a key absent from the defaults at that nesting level; every key
whose default value is a non-dict (such as `date_offset`, or
`retries.max_attempts` and `retries.delay` one level down) keeps its
default value in the merged configuration even when the input supplies a
different value for it. -/
theorem load_dict_defaults_shadow_input (dents uents : List (String × JValue))
    (res : JValue)
    (hmerge : deepUpdate (JValue.obj dents) (JValue.obj uents) = some res)
    (hnodup : (uents.map Prod.fst).Nodup) :
    (∀ k v, lookupKey dents k = none → (k, v) ∈ uents →
      lookupJ res k = some v) ∧
    (∀ k dv, lookupKey dents k = some dv → dv.isObj = false →
      lookupJ res k = some dv) := by
  have hentries : deepUpdateEntries (JValue.obj dents) uents = some res := by
    simpa only [deepUpdate] using hmerge
  constructor
  · intro k v hk hmem
    exact deepUpdateEntries_absent k v uents dents res hentries hnodup hk hmem
  · intro k dv hk hobj
    exact deepUpdateEntries_keeps_nonobj k dv hobj uents dents res hentries hk

/-- Witness for C10: merging an input that supplies `date_offset = 5`,
`retries.max_attempts = 7` and `site_code = "X"` into `DEFAULTS` keeps
`date_offset = 1` and `retries = {max_attempts: 3, delay: 10}` and only
adds `site_code`. -/
theorem load_dict_defaults_shadow_input_witness :
    ProcessConfiguration.load_dict_merge (JValue.obj exampleInputEntries)
        = some exampleMergedConfig ∧
    lookupJ exampleMergedConfig "date_offset" = some (JValue.num 1) ∧
    lookupJ exampleMergedConfig "site_code" = some (JValue.str "X") ∧
    lookupJ exampleMergedConfig "retries"
        = some (JValue.obj [("max_attempts", JValue.num 3), ("delay", JValue.num 10)]) := by
  have hm : deepUpdate (JValue.obj ProcessConfiguration.DEFAULTS_entries)
      (JValue.obj exampleInputEntries) = some exampleMergedConfig := by
    simp [deepUpdate, deepUpdateEntries, ProcessConfiguration.DEFAULTS_entries,
      exampleInputEntries, exampleMergedConfig, lookupKey, setKey, JValue.isObj]
  have h := load_dict_defaults_shadow_input ProcessConfiguration.DEFAULTS_entries
    exampleInputEntries exampleMergedConfig hm (by decide)
  refine ⟨hm, h.2 "date_offset" (JValue.num 1) rfl rfl, ?_, ?_⟩
  · refine h.1 "site_code" (JValue.str "X") rfl ?_
    exact List.mem_cons_of_mem _ (List.mem_cons_of_mem _ (List.mem_cons_self _ _))
  · rfl

end DWH
